import Mathlib

/-!
Verification of the KvStore merge/sync core of `openr/kvstore/KvStoreUtil.cpp`:
`mergeKeyValues`, `compareValues`, `KvStoreFilters::keyMatch` and
`dumpDifference`, plus the flood-rate validation exercised by
`openr/config/tests/ConfigTest.cpp`.

Strings are compared byte-lexicographically, as `std::string::operator<` /
`std::string::compare` do; we model the comparison on `String.data` directly
so that it evaluates in the kernel. `std::string::compare` guarantees only the
sign of its result: `byteCompare`/`stringCompare` model the common memcmp-based
implementation, whose magnitude is the difference of the first differing bytes
(else the length difference), while `compareString` is the normalized sign,
used only where the code sign-tests the result. Thrift optional fields are
`Option`;
dereferencing an unset optional field yields the default-constructed value
(empty string), as fbthrift `optional_field_ref::operator*` does. Dereferencing
an end iterator (`kvStoreIt->second` when `kvStoreIt == kvStore.end()`) is
undefined behaviour and is modelled by the merge returning `none`.
-/

/-- Byte-lexicographic strict comparison of character lists, the order used by
`std::string::operator<` / the sign of `std::string::compare`. -/
def lexLt : List Char → List Char → Bool
  | [], [] => false
  | [], _ :: _ => true
  | _ :: _, [] => false
  | a :: as, b :: bs => if a < b then true else if a = b then lexLt as bs else false

/-- `a < b` on strings, byte-lexicographically (`std::string::operator<`). -/
def strLt (a b : String) : Bool := lexLt a.data b.data

/-- The sign (-1/0/1) of the byte-lexicographic three-way comparison.
`mergeKeyValues` only sign-tests its `std::string::compare` result (`rc > 0`,
`rc == 0`), so the normalized sign embeds those tests faithfully; the raw,
magnitude-carrying comparison is `stringCompare` below. -/
def compareString (a b : String) : Int :=
  if strLt a b then -1 else if a = b then 0 else 1

/-- The raw result of `std::string::compare`, as produced by the common
memcmp-based standard libraries: the difference of the first differing bytes,
else the length difference. The C++ standard guarantees only the sign. -/
def byteCompare : List Char → List Char → Int
  | [], bs => -(bs.length : Int)
  | as, [] => (as.length : Int)
  | a :: as, b :: bs => if a = b then byteCompare as bs else (a.toNat : Int) - (b.toNat : Int)

/-- `a.compare(b)` on `std::string`: raw three-way byte comparison. -/
def stringCompare (a b : String) : Int := byteCompare a.data b.data

/-- `thrift::Value`: a versioned KvStore record (fields of `Value` in the
thrift schema used by `KvStoreUtil.cpp`). `value` and `hash` are optional
thrift fields. -/
structure Value where
  version : Int
  originatorId : String
  value : Option String
  ttlVersion : Int
  ttl : Int
  hash : Option Int
deriving DecidableEq, Repr

/-- A KvStore map `key -> Value`, as a partial function. -/
def Store := String → Option Value

/-- Pointwise update of a store at one key. -/
def updateStore (st : Store) (key : String) (v : Option Value) : Store :=
  fun k => if k = key then v else st k

/-- The empty store. -/
def emptyStore : Store := fun _ => none

/-- Modelled from the spec: `TTL_INFINITY` is a negative sentinel value for the
`ttl` field meaning never-expire (`Constants::kTtlInfinity`, declared in
`Constants.h` which is outside `src/`; only its instantiation is in
`Constants.cpp`). -/
def kTtlInfinity : Int := -2147483648

/-- Modelled from the spec: `hash` is a deterministic digest
`H(version, originatorId, value)` stable across nodes. The digest itself
(`generateHash`) is declared outside `src/`; any fixed computable function
serves here. -/
def generateHash (version : Int) (originatorId : String) (value : Option String) : Int :=
  version * 31 + Int.ofNat originatorId.length * 17 + Int.ofNat (value.getD "").length

/-- The hash fill-in performed after an all-update in `mergeKeyValues`:
`if (not kvStoreIt->second.hash_ref().has_value()) ... = generateHash(...)`. -/
def fillHash (v : Value) : Value :=
  match v.hash with
  | some _ => v
  | none => { v with hash := some (generateHash v.version v.originatorId v.value) }

/-- `thrift::FilterOperator` (`OR` is what the spec calls `ANY`, `AND` is
`ALL`). -/
inductive FilterOperator where
  | OR
  | AND
deriving DecidableEq, Repr

/-- `KvStoreFilters`: key-prefix patterns, originator-id set and the
combining operator. -/
structure KvStoreFilters where
  keyPrefixList : List String
  originatorIds : List String
  filterOperator : FilterOperator
deriving DecidableEq, Repr

/-- Whether `p` is a byte prefix of `s`. -/
def strIsPrefixOf (p s : String) : Bool := List.isPrefixOf p.data s.data

/-- Modelled from the spec: `RegexSet::match` (the class is outside `src/`)
holds the key-prefix patterns, anchored at key start, and matches when the key
matches one of them. -/
def regexSetMatch (patterns : List String) (key : String) : Bool :=
  patterns.any fun p => strIsPrefixOf p key

/-- `KvStoreFilters::keyMatchAny`: match on any attribute. -/
def KvStoreFilters.keyMatchAny (f : KvStoreFilters) (key : String) (value : Value) : Bool :=
  if f.keyPrefixList.isEmpty && f.originatorIds.isEmpty then
    true
  else if !f.keyPrefixList.isEmpty && regexSetMatch f.keyPrefixList key then
    true
  else if !f.originatorIds.isEmpty && f.originatorIds.contains value.originatorId then
    true
  else
    false

/-- `KvStoreFilters::keyMatchAll`: match on all attributes. -/
def KvStoreFilters.keyMatchAll (f : KvStoreFilters) (key : String) (value : Value) : Bool :=
  if f.keyPrefixList.isEmpty && f.originatorIds.isEmpty then
    true
  else if !f.keyPrefixList.isEmpty && !regexSetMatch f.keyPrefixList key then
    false
  else if !f.originatorIds.isEmpty && !f.originatorIds.contains value.originatorId then
    false
  else
    true

/-- `KvStoreFilters::keyMatch`: dispatch on the filter operator. -/
def KvStoreFilters.keyMatch (f : KvStoreFilters) (key : String) (value : Value) : Bool :=
  if f.filterOperator = FilterOperator.OR then
    f.keyMatchAny key value
  else
    f.keyMatchAll key value

/-- One iteration of the `for (const auto& [key, value] : keyVals)` loop of
`mergeKeyValues`, acting on the current record `cur` stored under `key`.
Returns `none` on the undefined-behaviour path (dereference of
`kvStoreIt->second` when `kvStoreIt == kvStore.end()`), otherwise the new
stored record together with whether `(key, value)` is announced in the
update delta. -/
def mergeOne (filters : Option KvStoreFilters) (key : String) (value : Value)
    (cur : Option Value) : Option (Option Value × Bool) :=
  if filters.elim false fun f => !(f.keyMatch key value) then
    some (cur, false)
  else if value.ttl ≠ kTtlInfinity ∧ value.ttl ≤ 0 then
    some (cur, false)
  else
    let myVersion : Int := match cur with | some c => c.version | none => 0
    if value.version < myVersion then
      some (cur, false)
    else
      match value.value with
      | some incBytes =>
          if value.version > myVersion then
            some (some (fillHash value), true)
          else
            match cur with
            | none => none
            | some c =>
                if strLt c.originatorId value.originatorId then
                  some (some (fillHash value), true)
                else if value.originatorId = c.originatorId then
                  if compareString incBytes (c.value.getD "") > 0 then
                    some (some (fillHash value), true)
                  else if compareString incBytes (c.value.getD "") = 0 ∧
                      value.ttlVersion > c.ttlVersion then
                    some (some { c with ttl := value.ttl, ttlVersion := value.ttlVersion }, true)
                  else
                    some (cur, false)
                else
                  some (cur, false)
      | none =>
          match cur with
          | some c =>
              if value.version = c.version ∧ value.originatorId = c.originatorId ∧
                  value.ttlVersion > c.ttlVersion then
                some (some { c with ttl := value.ttl, ttlVersion := value.ttlVersion }, true)
              else
                some (cur, false)
          | none => some (cur, false)

/-- The loop of `mergeKeyValues` over the incoming batch, carrying the store
and the accumulated `kvUpdates` delta. -/
def mergeKeyValuesAux (filters : Option KvStoreFilters) (st : Store)
    (delta : List (String × Value)) : List (String × Value) → Option (Store × List (String × Value))
  | [] => some (st, delta)
  | (key, value) :: rest =>
      match mergeOne filters key value (st key) with
      | none => none
      | some (newCur, updated) =>
          mergeKeyValuesAux filters (updateStore st key newCur)
            (if updated then delta ++ [(key, value)] else delta) rest

/-- `mergeKeyValues(kvStore, keyVals, filters)`: merge an incoming batch into
the store, returning the mutated store and the `kvUpdates` delta, or `none`
when the undefined-behaviour path is reached. -/
def mergeKeyValues (kvStore : Store) (keyVals : List (String × Value))
    (filters : Option KvStoreFilters) : Option (Store × List (String × Value)) :=
  mergeKeyValuesAux filters kvStore [] keyVals

/-- `compareValues(v1, v2)`: which record is better. -/
def compareValues (v1 v2 : Value) : Int :=
  if v1.version ≠ v2.version then
    if v1.version > v2.version then 1 else -1
  else if v1.originatorId ≠ v2.originatorId then
    if strLt v2.originatorId v1.originatorId then 1 else -1
  else if v1.hash.isSome ∧ v2.hash.isSome ∧ v1.hash = v2.hash then
    if v1.ttlVersion ≠ v2.ttlVersion then
      if v1.ttlVersion > v2.ttlVersion then 1 else -1
    else 0
  else
    match v1.value, v2.value with
    | some a, some b => stringCompare a b
    | _, _ => -2

/-- `thrift::Publication`, restricted to the fields `dumpDifference` fills. -/
structure Publication where
  area : String
  keyVals : List (String × Value)
  tobeUpdatedKeys : List String
deriving DecidableEq, Repr

/-- `map.find(key)` on an association-list map. -/
def lookupKey (key : String) : List (String × Value) → Option Value
  | [] => none
  | (k, v) :: rest => if key = k then some v else lookupKey key rest

/-- The per-key loop of `dumpDifference` over `allKeys`, returning the
`keyVals` and `tobeUpdatedKeys` contributions. -/
def dumpDiffLoop (myKeyVal reqKeyVal : List (String × Value)) :
    List String → List (String × Value) × List String
  | [] => ([], [])
  | key :: rest =>
      let acc := dumpDiffLoop myKeyVal reqKeyVal rest
      match lookupKey key myKeyVal with
      | none => (acc.1, key :: acc.2)
      | some myVal =>
          match lookupKey key reqKeyVal with
          | none => ((key, myVal) :: acc.1, acc.2)
          | some reqVal =>
              ((if compareValues myVal reqVal = 1 ∨ compareValues myVal reqVal = -2 then
                  [(key, myVal)] else []) ++ acc.1,
               (if compareValues myVal reqVal = -1 ∨ compareValues myVal reqVal = -2 then
                  [key] else []) ++ acc.2)

/-- `dumpDifference(area, myKeyVal, reqKeyVal)`: the three-way diff
publication. `allKeys` is the union of the two key sets. -/
def dumpDifference (area : String) (myKeyVal reqKeyVal : List (String × Value)) : Publication :=
  let allKeys := (myKeyVal.map Prod.fst ++ reqKeyVal.map Prod.fst).dedup
  let acc := dumpDiffLoop myKeyVal reqKeyVal allKeys
  { area := area, keyVals := acc.1, tobeUpdatedKeys := acc.2 }

/-- `thrift::KvstoreFloodRate`. -/
structure KvstoreFloodRate where
  flood_msg_per_sec : Int
  flood_msg_burst_size : Int
deriving DecidableEq, Repr

/-- The slice of `thrift::KvstoreConfig` the flood-rate validation reads. -/
structure KvstoreConfig where
  flood_rate : Option KvstoreFloodRate
deriving DecidableEq, Repr

/-- The slice of `thrift::OpenrConfig` the flood-rate validation reads. -/
structure OpenrConfig where
  node_name : String
  kvstore_config : KvstoreConfig
deriving DecidableEq, Repr

/-- The exception kinds thrown by `Config::populateInternalDb`, as observed by
`ConfigTest.cpp`. -/
inductive ConfigException where
  | outOfRange
  | invalidArgument
deriving DecidableEq, Repr

/-- A successfully constructed `Config` object. -/
structure Config where
  conf : OpenrConfig
deriving DecidableEq, Repr

/-- Modelled from the spec: the `Config` constructor runs
`populateInternalDb`, whose class definition is outside `src/` (only
`ConfigTest.cpp` is present). Per the spec's configuration table,
`floodRate.msgPerSec` and `floodRate.burstSize` are invalid if `≤ 0`, and an
invalid numeric option surfaces as a construction failure
(`std::out_of_range`); otherwise a `Config` holding the given configuration
is produced. -/
def populateInternalDb (c : OpenrConfig) : Except ConfigException Config :=
  match c.kvstore_config.flood_rate with
  | some fr =>
      if fr.flood_msg_per_sec ≤ 0 then
        Except.error ConfigException.outOfRange
      else if fr.flood_msg_burst_size ≤ 0 then
        Except.error ConfigException.outOfRange
      else
        Except.ok { conf := c }
  | none => Except.ok { conf := c }

/-- A sequence of `mergeKeyValues` calls applied to a store, each with its own
batch and filters; `none` as soon as one call hits the undefined-behaviour
path. -/
def applyBatches (st : Store) :
    List (List (String × Value) × Option KvStoreFilters) → Option Store
  | [] => some st
  | (batch, filters) :: rest =>
      match mergeKeyValues st batch filters with
      | none => none
      | some (st2, _) => applyBatches st2 rest

/-- The `(version, originatorId)` pair of `a` is lexicographically at most that
of `b` (version numerically first, then originatorId byte-lexicographically). -/
def versionOrigLe (a b : Value) : Prop :=
  a.version < b.version ∨
    (a.version = b.version ∧ (strLt a.originatorId b.originatorId = true ∨
      a.originatorId = b.originatorId))

/-! ### Order facts for the byte-lexicographic string comparison -/

theorem lexLt_irrefl (a : List Char) : lexLt a a = false := by
  induction a with
  | nil => rfl
  | cons x xs ih => simp [lexLt, ih]

theorem lexLt_trans {a b c : List Char} :
    lexLt a b = true → lexLt b c = true → lexLt a c = true := by
  induction a generalizing b c with
  | nil =>
    intro h1 h2
    cases b with
    | nil => simp [lexLt] at h1
    | cons y ys =>
      cases c with
      | nil => simp [lexLt] at h2
      | cons z zs => simp [lexLt]
  | cons x xs ih =>
    intro h1 h2
    cases b with
    | nil => simp [lexLt] at h1
    | cons y ys =>
      cases c with
      | nil => simp [lexLt] at h2
      | cons z zs =>
        simp only [lexLt] at h1 h2 ⊢
        by_cases hxy : x < y
        · by_cases hyz : y < z
          · simp [lt_trans hxy hyz]
          · by_cases hyz2 : y = z
            · subst hyz2; simp [hxy]
            · simp [hyz, hyz2] at h2
        · by_cases hxy2 : x = y
          · subst hxy2
            simp [hxy] at h1
            by_cases hyz : x < z
            · simp [hyz]
            · by_cases hyz2 : x = z
              · subst hyz2
                simp [hxy] at h2 ⊢
                exact ih h1 h2
              · simp [hyz, hyz2] at h2
          · simp [hxy, hxy2] at h1

theorem lexLt_conn (a b : List Char) :
    lexLt a b = false → lexLt b a = false → a = b := by
  induction a generalizing b with
  | nil => cases b <;> simp [lexLt]
  | cons x xs ih =>
    cases b with
    | nil => simp [lexLt]
    | cons y ys =>
      simp only [lexLt]
      intro h1 h2
      by_cases hxy : x < y
      · simp [hxy] at h1
      · by_cases hyx : y < x
        · simp [hyx] at h2
        · have hxy2 : x = y := le_antisymm (not_lt.mp hyx) (not_lt.mp hxy)
          subst hxy2
          simp [hxy] at h1 h2
          simp [ih ys h1 h2]

theorem String.data_inj {a b : String} (h : a.data = b.data) : a = b := by
  cases a; cases b; simp only [] at h; cases h; rfl

theorem strLt_irrefl (a : String) : strLt a a = false := lexLt_irrefl a.data

theorem strLt_conn {a b : String} (h1 : strLt a b = false) (h2 : strLt b a = false) : a = b :=
  String.data_inj (lexLt_conn a.data b.data h1 h2)

theorem strLt_trans {a b c : String} (h1 : strLt a b = true) (h2 : strLt b c = true) :
    strLt a c = true := lexLt_trans h1 h2

theorem strLt_asymm {a b : String} (h : strLt a b = true) : strLt b a = false := by
  by_contra hc
  have h2 : strLt b a = true := by
    cases hba : strLt b a with
    | false => exact absurd hba hc
    | true => rfl
  have := strLt_trans h h2
  rw [strLt_irrefl] at this
  simp at this

theorem strLt_of_ne_of_not_lt {a b : String} (hne : a ≠ b) (h : strLt a b = false) :
    strLt b a = true := by
  cases hba : strLt b a with
  | true => rfl
  | false => exact absurd (strLt_conn h hba) hne

theorem compareString_self (a : String) : compareString a a = 0 := by
  simp [compareString, strLt_irrefl]

theorem compareString_eq_zero_iff {a b : String} : compareString a b = 0 ↔ a = b := by
  constructor
  · intro h
    unfold compareString at h
    by_cases hlt : strLt a b = true
    · simp [hlt] at h
    · by_cases heq : a = b
      · exact heq
      · simp [hlt, heq] at h
  · intro h; subst h; exact compareString_self a

theorem compareString_pos_iff {a b : String} : 0 < compareString a b ↔ strLt b a = true := by
  unfold compareString
  by_cases hlt : strLt a b = true
  · simp [hlt, strLt_asymm hlt]
  · by_cases heq : a = b
    · subst heq; simp [strLt_irrefl]
    · simp only [hlt, heq, if_false]
      simp [strLt_of_ne_of_not_lt heq (by simpa using hlt)]

theorem compareString_nonpos_of_not {a b : String} (h : strLt b a = false) :
    compareString a b ≤ 0 := by
  by_contra hc
  push_neg at hc
  have h2 := compareString_pos_iff.mp hc
  rw [h2] at h
  simp at h

/-! ### Store and association-list helpers -/

theorem updateStore_same (st : Store) (k : String) (v : Option Value) :
    updateStore st k v k = v := by simp [updateStore]

theorem updateStore_other (st : Store) (k k' : String) (v : Option Value) (h : k' ≠ k) :
    updateStore st k v k' = st k' := by simp [updateStore, h]

theorem updateStore_self (st : Store) (k : String) : updateStore st k (st k) = st := by
  funext k'
  by_cases h : k' = k
  · subst h; simp [updateStore]
  · simp [updateStore, h]

theorem lookupKey_eq_none_iff {k : String} {l : List (String × Value)} :
    lookupKey k l = none ↔ k ∉ l.map Prod.fst := by
  induction l with
  | nil => simp [lookupKey]
  | cons p rest ih =>
    obtain ⟨k0, v0⟩ := p
    by_cases h : k = k0
    · subst h; simp [lookupKey]
    · simp [lookupKey, h, ih]

theorem mem_of_lookupKey_eq_some {k : String} {v : Value} {l : List (String × Value)}
    (h : lookupKey k l = some v) : (k, v) ∈ l := by
  induction l with
  | nil => simp [lookupKey] at h
  | cons p rest ih =>
    obtain ⟨k0, v0⟩ := p
    by_cases hk : k = k0
    · subst hk
      simp [lookupKey] at h
      simp [h]
    · simp [lookupKey, hk] at h
      simp [ih h]

theorem lookupKey_eq_some_of_mem_nodup {k : String} {v : Value} {l : List (String × Value)}
    (hnd : (l.map Prod.fst).Nodup) (hmem : (k, v) ∈ l) : lookupKey k l = some v := by
  induction l with
  | nil => simp at hmem
  | cons p rest ih =>
    obtain ⟨k0, v0⟩ := p
    simp only [List.map_cons, List.nodup_cons] at hnd
    rcases List.mem_cons.mp hmem with h | h
    · cases h
      simp [lookupKey]
    · have hk : k ≠ k0 := by
        intro hkk
        subst hkk
        exact hnd.1 (List.mem_map_of_mem Prod.fst h)
      simp [lookupKey, hk, ih hnd.2 h]

theorem compareString_cases (a b : String) :
    compareString a b = -1 ∨ compareString a b = 0 ∨ compareString a b = 1 := by
  unfold compareString
  by_cases h1 : strLt a b = true
  · simp [h1]
  · by_cases h2 : a = b
    · subst h2; simp [strLt_irrefl]
    · simp [h1, h2]

/-- Claim C9: constructing a Config whose kvstore flood_rate has
flood_msg_per_sec ≤ 0 or flood_msg_burst_size ≤ 0 fails: the constructor
throws std::out_of_range and no Config object is produced, for every
otherwise-valid configuration. -/
theorem populateInternalDb_floodRate_invalid (c : OpenrConfig) (fr : KvstoreFloodRate)
    (hfr : c.kvstore_config.flood_rate = some fr)
    (hbad : fr.flood_msg_per_sec ≤ 0 ∨ fr.flood_msg_burst_size ≤ 0) :
    populateInternalDb c = Except.error ConfigException.outOfRange := by
  unfold populateInternalDb
  rw [hfr]
  rcases hbad with h | h
  · simp [h]
  · by_cases h2 : fr.flood_msg_per_sec ≤ 0
    · simp [h2]
    · simp [h2, h]

theorem populateInternalDb_floodRate_invalid_witness :
    populateInternalDb
        { node_name := "node1",
          kvstore_config :=
            { flood_rate := some { flood_msg_per_sec := 0, flood_msg_burst_size := 100 } } } =
      Except.error ConfigException.outOfRange :=
  populateInternalDb_floodRate_invalid _ { flood_msg_per_sec := 0, flood_msg_burst_size := 100 }
    rfl (Or.inl (by decide))

/-- Claim C7: KvStoreFilters::keyMatch returns true whenever both the
key-prefix list and the originator set are empty; with operator ANY (thrift
OR) it returns true iff the key matches some prefix pattern or the record's
originatorId is in the originator set (whenever some filter is configured);
with operator ALL (thrift AND) it returns true iff (the prefix list is empty
or the key matches a pattern) and (the originator set is empty or the
originatorId is in the set). -/
theorem keyMatch_spec (f : KvStoreFilters) (key : String) (v : Value) :
    (f.keyPrefixList = [] ∧ f.originatorIds = [] → f.keyMatch key v = true) ∧
    (f.filterOperator = FilterOperator.OR →
      ¬(f.keyPrefixList = [] ∧ f.originatorIds = []) →
      (f.keyMatch key v = true ↔
        regexSetMatch f.keyPrefixList key = true ∨
          f.originatorIds.contains v.originatorId = true)) ∧
    (f.filterOperator = FilterOperator.AND →
      (f.keyMatch key v = true ↔
        (f.keyPrefixList = [] ∨ regexSetMatch f.keyPrefixList key = true) ∧
          (f.originatorIds = [] ∨ f.originatorIds.contains v.originatorId = true))) := by
  refine ⟨?_, ?_, ?_⟩
  · rintro ⟨h1, h2⟩
    by_cases hop : f.filterOperator = FilterOperator.OR <;>
      simp [KvStoreFilters.keyMatch, KvStoreFilters.keyMatchAny, KvStoreFilters.keyMatchAll,
        hop, h1, h2]
  · intro hop hne
    by_cases he1 : f.keyPrefixList = []
    · by_cases he2 : f.originatorIds = []
      · exact absurd ⟨he1, he2⟩ hne
      · simp [KvStoreFilters.keyMatch, KvStoreFilters.keyMatchAny, hop, he1, he2,
          regexSetMatch, List.isEmpty_iff]
    · by_cases he2 : f.originatorIds = [] <;>
        · simp only [KvStoreFilters.keyMatch, KvStoreFilters.keyMatchAny, hop, if_true,
            List.isEmpty_iff, he1, he2]
          by_cases hm : regexSetMatch f.keyPrefixList key = true <;>
            by_cases hc : f.originatorIds.contains v.originatorId = true <;>
              simp [he1, he2, hm, hc, List.isEmpty_iff]
  · intro hop
    have hop2 : ¬ (f.filterOperator = FilterOperator.OR) := by simp [hop]
    by_cases he1 : f.keyPrefixList = [] <;>
      by_cases he2 : f.originatorIds = [] <;>
        by_cases hm : regexSetMatch f.keyPrefixList key = true <;>
          by_cases hc : f.originatorIds.contains v.originatorId = true <;>
            simp [KvStoreFilters.keyMatch, KvStoreFilters.keyMatchAll, hop2, he1, he2, hm, hc,
              List.isEmpty_iff]

theorem keyMatch_spec_witness :
    ({ keyPrefixList := ["adj:"], originatorIds := ["node9"],
       filterOperator := FilterOperator.OR } : KvStoreFilters).keyMatch "adj:node1"
        { version := 1, originatorId := "node2", value := some "x", ttlVersion := 0,
          ttl := 1, hash := none } = true :=
  ((keyMatch_spec _ "adj:node1" _).2.1 rfl (by simp)).mpr (Or.inl (by decide))

theorem Char.toNat_injective {x y : Char} (h : x.toNat = y.toNat) : x = y :=
  Char.ext (UInt32.toNat.inj h)

theorem byteCompare_sign (a b : List Char) :
    Int.sign (byteCompare a b) = (if lexLt a b = true then -1 else if a = b then 0 else 1) := by
  induction a generalizing b with
  | nil =>
    cases b with
    | nil => simp [byteCompare, lexLt]
    | cons y ys =>
      rw [show byteCompare [] (y :: ys) = -(((y :: ys).length : Nat) : Int) from rfl]
      rw [Int.sign_eq_neg_one_iff_neg.mpr (by simp; omega)]
      simp [lexLt]
  | cons x xs ih =>
    cases b with
    | nil =>
      rw [show byteCompare (x :: xs) [] = (((x :: xs).length : Nat) : Int) from rfl]
      rw [Int.sign_eq_one_iff_pos.mpr (by simp)]
      simp [lexLt]
    | cons y ys =>
      by_cases hxy : x = y
      · subst hxy
        have h1 : byteCompare (x :: xs) (x :: ys) = byteCompare xs ys := by
          simp [byteCompare]
        have h2 : lexLt (x :: xs) (x :: ys) = lexLt xs ys := by
          simp [lexLt, lt_irrefl]
        rw [h1, h2, ih]
        by_cases he : xs = ys <;> simp [he]
      · have h1 : byteCompare (x :: xs) (y :: ys) = (x.toNat : Int) - (y.toNat : Int) := by
          simp [byteCompare, hxy]
        rw [h1]
        by_cases hlt : x < y
        · have hn : x.toNat < y.toNat := Char.lt_def.mp hlt
          rw [Int.sign_eq_neg_one_iff_neg.mpr (by omega)]
          simp [lexLt, hlt]
        · have hgt : y < x := by
            rcases lt_trichotomy x y with h3 | h3 | h3
            · exact absurd h3 hlt
            · exact absurd h3 hxy
            · exact h3
          have hn : y.toNat < x.toNat := Char.lt_def.mp hgt
          rw [Int.sign_eq_one_iff_pos.mpr (by omega)]
          simp [lexLt, hlt, hxy]

theorem stringCompare_sign (a b : String) :
    Int.sign (stringCompare a b) = compareString a b := by
  unfold stringCompare compareString strLt
  rw [byteCompare_sign]
  by_cases he : a = b
  · subst he
    simp [lexLt_irrefl]
  · have hd : a.data ≠ b.data := fun hc => he (String.data_inj hc)
    by_cases hl : lexLt a.data b.data = true
    · simp [hl]
    · simp [hl, he, hd]

/-- Claim C2 counterexample: on records equal in version and originatorId with
no hashes and value bytes "c" and "a", compareValues returns the raw
std::string::compare result 2 (the byte difference), which lies outside the
claimed range {-2, -1, 0, 1}. -/
theorem compareValues_range_counterexample :
    compareValues
        { version := 1, originatorId := "x", value := some "c", ttlVersion := 0,
          ttl := 1, hash := none }
        { version := 1, originatorId := "x", value := some "a", ttlVersion := 0,
          ttl := 1, hash := none } = 2 ∧
      ¬((2 : Int) = -2 ∨ (2 : Int) = -1 ∨ (2 : Int) = 0 ∨ (2 : Int) = 1) := by
  decide

/-- Claim C2, amended: compareValues returns the sign of the version
comparison when versions differ, else the sign of the originatorId comparison
when originators differ, else (when both hashes are present and equal) the
sign of the ttlVersion comparison, else (when both values are present) the raw
result of the byte comparison of the two values, whose sign matches the
lexicographic byte order but whose magnitude is implementation-defined, so the
result need not lie in {-2, -1, 0, 1}; else -2. Outside the value-bytes branch
the result always lies in {-2, -1, 0, 1}. -/
theorem compareValues_spec_amended (v1 v2 : Value) :
    (v1.version ≠ v2.version →
      compareValues v1 v2 = Int.sign (v1.version - v2.version)) ∧
    (v1.version = v2.version → v1.originatorId ≠ v2.originatorId →
      compareValues v1 v2 = compareString v1.originatorId v2.originatorId) ∧
    (v1.version = v2.version → v1.originatorId = v2.originatorId →
      v1.hash.isSome = true → v2.hash.isSome = true → v1.hash = v2.hash →
      compareValues v1 v2 = Int.sign (v1.ttlVersion - v2.ttlVersion)) ∧
    (v1.version = v2.version → v1.originatorId = v2.originatorId →
      ¬(v1.hash.isSome = true ∧ v2.hash.isSome = true ∧ v1.hash = v2.hash) →
      ∀ a b, v1.value = some a → v2.value = some b →
        compareValues v1 v2 = stringCompare a b ∧
        Int.sign (compareValues v1 v2) = compareString a b) ∧
    (v1.version = v2.version → v1.originatorId = v2.originatorId →
      ¬(v1.hash.isSome = true ∧ v2.hash.isSome = true ∧ v1.hash = v2.hash) →
      (v1.value = none ∨ v2.value = none) →
      compareValues v1 v2 = -2) ∧
    (v1.version ≠ v2.version ∨ v1.originatorId ≠ v2.originatorId ∨
        (v1.hash.isSome = true ∧ v2.hash.isSome = true ∧ v1.hash = v2.hash) ∨
        v1.value = none ∨ v2.value = none →
      (compareValues v1 v2 = -2 ∨ compareValues v1 v2 = -1 ∨
        compareValues v1 v2 = 0 ∨ compareValues v1 v2 = 1)) := by
  refine ⟨?_, ?_, ?_, ?_, ?_, ?_⟩
  · intro h1
    unfold compareValues
    by_cases h2 : v1.version > v2.version
    · rw [Int.sign_eq_one_iff_pos.mpr (by omega)]
      simp [h1, h2]
    · have hlt : v1.version - v2.version < 0 := by
        rcases lt_trichotomy v1.version v2.version with h | h | h
        · omega
        · exact absurd h h1
        · exact absurd h h2
      rw [Int.sign_eq_neg_one_iff_neg.mpr hlt]
      simp [h1, h2]
  · intro h1 h2
    unfold compareValues
    by_cases h3 : strLt v2.originatorId v1.originatorId = true
    · have h4 : strLt v1.originatorId v2.originatorId = false := strLt_asymm h3
      have h5 : v1.originatorId ≠ v2.originatorId := h2
      simp [compareString, h1, h2, h3, h4, h5]
    · have h3f : strLt v2.originatorId v1.originatorId = false := by
        cases hb : strLt v2.originatorId v1.originatorId with
        | false => rfl
        | true => exact absurd hb h3
      have h4 : strLt v1.originatorId v2.originatorId = true :=
        strLt_of_ne_of_not_lt (fun he => h2 he.symm) h3f
      simp [compareString, h1, h2, h3, h4]
  · intro h1 h2 h3 h4 h5
    unfold compareValues
    by_cases h6 : v1.ttlVersion ≠ v2.ttlVersion
    · by_cases h7 : v1.ttlVersion > v2.ttlVersion
      · rw [Int.sign_eq_one_iff_pos.mpr (by omega)]
        simp [h1, h2, h3, h4, h5, h6, h7]
      · have hlt : v1.ttlVersion - v2.ttlVersion < 0 := by
          rcases lt_trichotomy v1.ttlVersion v2.ttlVersion with h | h | h
          · omega
          · exact absurd h h6
          · exact absurd h h7
        rw [Int.sign_eq_neg_one_iff_neg.mpr hlt]
        simp [h1, h2, h3, h4, h5, h6, h7]
    · have he : v1.ttlVersion = v2.ttlVersion := by
        by_contra hc
        exact h6 hc
      rw [he]
      simp [h1, h2, h3, h4, h5, he]
  · intro h1 h2 h3 a b ha hb
    have hval : compareValues v1 v2 = stringCompare a b := by
      unfold compareValues
      simp [h1, h2, h3, ha, hb]
    exact ⟨hval, by rw [hval]; exact stringCompare_sign a b⟩
  · intro h1 h2 h3 h4
    unfold compareValues
    rcases h4 with h | h
    · simp [h1, h2, h3, h]
    · simp only [h1, h2, h3, h, if_neg, ite_false]
      simp [h1, h2, h3]
  · intro hcase
    unfold compareValues
    by_cases h1 : v1.version ≠ v2.version
    · by_cases h2 : v1.version > v2.version <;> simp [h1, h2]
    · by_cases h2 : v1.originatorId ≠ v2.originatorId
      · by_cases h3 : strLt v2.originatorId v1.originatorId = true <;> simp [h1, h2, h3]
      · by_cases h3 : v1.hash.isSome = true ∧ v2.hash.isSome = true ∧ v1.hash = v2.hash
        · by_cases h4 : v1.ttlVersion ≠ v2.ttlVersion
          · by_cases h5 : v1.ttlVersion > v2.ttlVersion <;> simp [h1, h2, h3, h4, h5]
          · simp [h1, h2, h3, h4]
        · rcases hcase with hc | hc | hc | hc | hc
          · exact absurd hc h1
          · exact absurd hc h2
          · exact absurd hc h3
          · simp [h1, h2, h3, hc]
          · simp only [h1, h2, h3, hc, if_neg, ite_false]
            simp [h1, h2, h3]

theorem compareValues_spec_amended_witness :
    compareValues
        { version := 5, originatorId := "x", value := some "c", ttlVersion := 0,
          ttl := 1, hash := none }
        { version := 5, originatorId := "x", value := some "a", ttlVersion := 0,
          ttl := 1, hash := none } = stringCompare "c" "a" ∧
      Int.sign
        (compareValues
          { version := 5, originatorId := "x", value := some "c", ttlVersion := 0,
            ttl := 1, hash := none }
          { version := 5, originatorId := "x", value := some "a", ttlVersion := 0,
            ttl := 1, hash := none }) = compareString "c" "a" :=
  (compareValues_spec_amended
      { version := 5, originatorId := "x", value := some "c", ttlVersion := 0,
        ttl := 1, hash := none }
      { version := 5, originatorId := "x", value := some "a", ttlVersion := 0,
        ttl := 1, hash := none }).2.2.2.1 rfl rfl (by decide) "c" "a" rfl rfl

theorem mergeOne_isSome (f : Option KvStoreFilters) (k : String) (v : Value)
    (cur : Option Value) (h : v.value.isSome = true → 1 ≤ v.version) :
    (mergeOne f k v cur).isSome = true := by
  unfold mergeOne
  cases hvv : v.value with
  | none =>
    cases cur <;> dsimp only [] <;> split_ifs <;> simp
  | some b =>
    have hver : 1 ≤ v.version := h (by simp [hvv])
    cases cur with
    | none =>
      dsimp only []
      split_ifs with h1 h2 h3 h4
      · simp
      · simp
      · simp
      · simp
      · exfalso; omega
    | some c =>
      dsimp only []
      split_ifs <;> simp

theorem mergeKeyValuesAux_isSome (f : Option KvStoreFilters) (st : Store)
    (delta l : List (String × Value))
    (h : ∀ p ∈ l, p.2.value.isSome = true → 1 ≤ p.2.version) :
    (mergeKeyValuesAux f st delta l).isSome = true := by
  induction l generalizing st delta with
  | nil => simp [mergeKeyValuesAux]
  | cons p rest ih =>
    obtain ⟨k, v⟩ := p
    have h1 := mergeOne_isSome f k v (st k) (h (k, v) (List.mem_cons_self _ _))
    unfold mergeKeyValuesAux
    cases hm : mergeOne f k v (st k) with
    | none => rw [hm] at h1; simp at h1
    | some r =>
      obtain ⟨nc, upd⟩ := r
      exact ih _ _ fun p hp => h p (List.mem_cons_of_mem _ hp)

/-- Claim C10: mergeKeyValues is only safe under the precondition that every
incoming record carrying a value has version ≥ 1. For an incoming record with
value present and version == 0 under a key absent from the store, the
equal-version branch dereferences kvStoreIt with kvStoreIt == kvStore.end()
(an invalid-iterator dereference, modelled as the merge returning none); under
the precondition that branch is only reached with a valid iterator and the
merge is total. -/
theorem mergeKeyValues_version_precondition :
    (∀ (st : Store) (k : String) (v : Value),
      st k = none → v.value.isSome = true → v.version = 0 →
      (v.ttl = kTtlInfinity ∨ 0 < v.ttl) →
      mergeKeyValues st [(k, v)] none = none) ∧
    (∀ (st : Store) (l : List (String × Value)) (f : Option KvStoreFilters),
      (∀ p ∈ l, p.2.value.isSome = true → 1 ≤ p.2.version) →
      (mergeKeyValues st l f).isSome = true) := by
  constructor
  · intro st k v hnone hval hver httl
    unfold mergeKeyValues mergeKeyValuesAux
    rw [hnone]
    cases hvv : v.value with
    | none => rw [hvv] at hval; simp at hval
    | some b =>
      have hm : mergeOne none k v none = none := by
        unfold mergeOne
        have httl2 : ¬(v.ttl ≠ kTtlInfinity ∧ v.ttl ≤ 0) := by
          rcases httl with h | h
          · intro hc; exact hc.1 h
          · intro hc; omega
        dsimp only [Option.elim]
        rw [if_neg (by simp)]
        rw [if_neg httl2]
        rw [if_neg (by omega)]
        rw [hvv]
        rw [if_neg (by omega)]
      rw [hm]
  · intro st l f h
    exact mergeKeyValuesAux_isSome f st [] l h

theorem mergeKeyValues_version_precondition_witness :
    mergeKeyValues emptyStore
        [("adj:node1",
          { version := 0, originatorId := "node1", value := some "payload",
            ttlVersion := 0, ttl := 300000, hash := none })] none = none ∧
    (mergeKeyValues emptyStore
        [("adj:node1",
          { version := 1, originatorId := "node1", value := some "payload",
            ttlVersion := 0, ttl := 300000, hash := none })] none).isSome = true :=
  ⟨mergeKeyValues_version_precondition.1 emptyStore "adj:node1" _ rfl (by decide) (by decide)
      (Or.inr (by decide)),
    mergeKeyValues_version_precondition.2 emptyStore _ none
      (by intro p hp _; simp at hp; subst hp; decide)⟩

theorem mergeOne_value_none (f : Option KvStoreFilters) (k : String) (inc : Value)
    (c : Value) (hv : inc.value = none) :
    mergeOne f k inc (some c) = some (some c, false) ∨
      (inc.version = c.version ∧ inc.originatorId = c.originatorId ∧
        c.ttlVersion < inc.ttlVersion ∧
        mergeOne f k inc (some c) =
          some (some { c with ttl := inc.ttl, ttlVersion := inc.ttlVersion }, true)) := by
  unfold mergeOne
  rw [hv]
  dsimp only []
  split_ifs with h1 h2 h3 h4
  · exact Or.inl rfl
  · exact Or.inl rfl
  · exact Or.inl rfl
  · exact Or.inr ⟨h4.1, h4.2.1, h4.2.2, rfl⟩
  · exact Or.inl rfl

/-- Claim C4: for every stored record and every incoming record with value
absent, mergeKeyValues performs an update only when the incoming version and
originatorId equal the stored ones and the incoming ttlVersion is strictly
larger, and that update changes only the stored record's ttl and ttlVersion:
its value, version, originatorId and hash fields are unchanged. -/
theorem mergeKeyValues_ttlOnly (f : Option KvStoreFilters) (st : Store) (k : String)
    (inc : Value) (hv : inc.value = none) :
    ∃ st2 delta, mergeKeyValues st [(k, inc)] f = some (st2, delta) ∧
      (st2 k = st k ∨
        ∃ cur cur2, st k = some cur ∧
          inc.version = cur.version ∧ inc.originatorId = cur.originatorId ∧
          cur.ttlVersion < inc.ttlVersion ∧
          st2 k = some cur2 ∧
          cur2.value = cur.value ∧ cur2.version = cur.version ∧
          cur2.originatorId = cur.originatorId ∧ cur2.hash = cur.hash ∧
          cur2.ttl = inc.ttl ∧ cur2.ttlVersion = inc.ttlVersion) := by
  unfold mergeKeyValues mergeKeyValuesAux
  cases hcur : st k with
  | none =>
    have hm : mergeOne f k inc none = some (none, false) := by
      unfold mergeOne
      rw [hv]
      dsimp only []
      split_ifs <;> rfl
    rw [hm]
    refine ⟨updateStore st k none, [], rfl, Or.inl ?_⟩
    rw [updateStore_same]
  | some c =>
    rcases mergeOne_value_none f k inc c hv with hm | ⟨hver, horig, httlv, hm⟩
    · rw [hm]
      refine ⟨updateStore st k (some c), [], rfl, Or.inl ?_⟩
      rw [updateStore_same]
    · rw [hm]
      refine ⟨updateStore st k (some { c with ttl := inc.ttl, ttlVersion := inc.ttlVersion }),
        [(k, inc)], rfl, Or.inr ?_⟩
      exact ⟨c, { c with ttl := inc.ttl, ttlVersion := inc.ttlVersion }, rfl, hver, horig,
        httlv, updateStore_same st k _, rfl, rfl, rfl, rfl, rfl, rfl⟩

theorem mergeKeyValues_ttlOnly_witness :
    ∃ st2 delta,
      mergeKeyValues
          (updateStore emptyStore "a"
            (some { version := 1, originatorId := "x", value := some "A", ttlVersion := 3,
                    ttl := 60000, hash := some 9 }))
          [("a", { version := 1, originatorId := "x", value := none, ttlVersion := 4,
                   ttl := 50000, hash := none })] none = some (st2, delta) ∧
      (st2 "a" =
          updateStore emptyStore "a"
            (some { version := 1, originatorId := "x", value := some "A", ttlVersion := 3,
                    ttl := 60000, hash := some 9 }) "a" ∨
        ∃ cur cur2,
          updateStore emptyStore "a"
            (some { version := 1, originatorId := "x", value := some "A", ttlVersion := 3,
                    ttl := 60000, hash := some 9 }) "a" = some cur ∧
          (1 : Int) = cur.version ∧ "x" = cur.originatorId ∧
          cur.ttlVersion < (4 : Int) ∧
          st2 "a" = some cur2 ∧
          cur2.value = cur.value ∧ cur2.version = cur.version ∧
          cur2.originatorId = cur.originatorId ∧ cur2.hash = cur.hash ∧
          cur2.ttl = (50000 : Int) ∧ cur2.ttlVersion = (4 : Int)) :=
  mergeKeyValues_ttlOnly none _ "a" _ rfl

theorem mergeOne_same (f : Option KvStoreFilters) (k : String) (v : Value) (c : Value)
    (h1 : c.version = v.version) (h2 : c.originatorId = v.originatorId)
    (h3 : c.value = v.value) (h4 : c.ttlVersion = v.ttlVersion) :
    mergeOne f k v (some c) = some (some c, false) := by
  unfold mergeOne
  by_cases hf : (f.elim false fun fl => !(fl.keyMatch k v)) = true
  · rw [if_pos hf]
  · rw [if_neg hf]
    by_cases httl : v.ttl ≠ kTtlInfinity ∧ v.ttl ≤ 0
    · rw [if_pos httl]
    · rw [if_neg httl]
      dsimp only []
      rw [if_neg (show ¬ v.version < c.version by omega)]
      cases hvv : v.value with
      | some b =>
        dsimp only []
        rw [if_neg (show ¬ v.version > c.version by omega)]
        rw [if_neg (show ¬ strLt c.originatorId v.originatorId = true by
          rw [h2, strLt_irrefl]; simp)]
        rw [if_pos h2.symm]
        have hcv : c.value.getD "" = b := by rw [h3, hvv]; rfl
        rw [hcv]
        rw [if_neg (show ¬ compareString b b > 0 by rw [compareString_self]; omega)]
        rw [if_neg (show ¬ (compareString b b = 0 ∧ v.ttlVersion > c.ttlVersion) by
          rintro ⟨-, hc⟩; omega)]
      | none =>
        dsimp only []
        rw [if_neg (show ¬ (v.version = c.version ∧ v.originatorId = c.originatorId ∧
            v.ttlVersion > c.ttlVersion) by rintro ⟨-, -, hc⟩; omega)]

/-- Claim C6: for every store and batch such that for each key in the batch
the store already holds a record with identical version, originatorId, value
and ttlVersion, mergeKeyValues returns an empty delta and leaves the store
unchanged. -/
theorem mergeKeyValues_idempotent (f : Option KvStoreFilters) (st : Store)
    (l : List (String × Value))
    (h : ∀ p ∈ l, ∃ cur, st p.1 = some cur ∧ cur.version = p.2.version ∧
      cur.originatorId = p.2.originatorId ∧ cur.value = p.2.value ∧
      cur.ttlVersion = p.2.ttlVersion) :
    mergeKeyValues st l f = some (st, []) := by
  induction l with
  | nil => rfl
  | cons p rest ih =>
    obtain ⟨k, v⟩ := p
    obtain ⟨cur, hcur, h1, h2, h3, h4⟩ := h (k, v) (List.mem_cons_self _ _)
    unfold mergeKeyValues mergeKeyValuesAux
    rw [hcur, mergeOne_same f k v cur h1 h2 h3 h4]
    dsimp only []
    rw [show updateStore st k (some cur) = st from by rw [← hcur]; exact updateStore_self st k]
    exact ih fun p hp => h p (List.mem_cons_of_mem _ hp)

theorem mergeKeyValues_idempotent_witness :
    mergeKeyValues
        (updateStore emptyStore "a"
          (some { version := 2, originatorId := "x", value := some "A", ttlVersion := 5,
                  ttl := 60000, hash := some 9 }))
        [("a", { version := 2, originatorId := "x", value := some "A", ttlVersion := 5,
                 ttl := 40000, hash := none })] none =
      some
        (updateStore emptyStore "a"
          (some { version := 2, originatorId := "x", value := some "A", ttlVersion := 5,
                  ttl := 60000, hash := some 9 }), []) :=
  mergeKeyValues_idempotent none _ _
    (by
      intro p hp
      simp at hp
      subst hp
      exact ⟨{ version := 2, originatorId := "x", value := some "A", ttlVersion := 5,
               ttl := 60000, hash := some 9 }, rfl, rfl, rfl, rfl, rfl⟩)

theorem mergeOne_admissible (k : String) (inc cur : Value) (incBytes : String)
    (hib : inc.value = some incBytes) (httl : inc.ttl = kTtlInfinity ∨ 0 < inc.ttl)
    (hver : ¬ inc.version < cur.version) :
    mergeOne none k inc (some cur) =
      (if inc.version > cur.version then some (some (fillHash inc), true)
       else if strLt cur.originatorId inc.originatorId then some (some (fillHash inc), true)
       else if inc.originatorId = cur.originatorId then
         if compareString incBytes (cur.value.getD "") > 0 then
           some (some (fillHash inc), true)
         else if compareString incBytes (cur.value.getD "") = 0 ∧
             inc.ttlVersion > cur.ttlVersion then
           some (some { cur with ttl := inc.ttl, ttlVersion := inc.ttlVersion }, true)
         else some (some cur, false)
       else some (some cur, false)) := by
  unfold mergeOne
  rw [if_neg (show ¬ ((none : Option KvStoreFilters).elim false
      fun fl => !(fl.keyMatch k inc)) = true by simp [Option.elim])]
  rw [if_neg (show ¬ (inc.ttl ≠ kTtlInfinity ∧ inc.ttl ≤ 0) by
    rcases httl with h | h
    · exact fun hc => hc.1 h
    · exact fun hc => by omega)]
  dsimp only []
  rw [if_neg hver, hib]

/-- Claim C1: for every store and incoming batch, mergeKeyValues resolves each
key by a strict total order: an incoming record carrying a value replaces the
stored record iff its version is higher, or versions are equal and its
originatorId is lexicographically larger, or version and originatorId are
equal and its value bytes are lexicographically larger; when version,
originatorId and value are all equal, a strictly larger ttlVersion causes a
TTL-only update; in every other case the stored record is kept and the key
does not appear in the returned delta. Stated per key for an admissible
incoming record (valid ttl; no filter configured). -/
theorem mergeKeyValues_resolution (st : Store) (k : String) (inc cur : Value)
    (incBytes curBytes : String)
    (hcur : st k = some cur) (hcb : cur.value = some curBytes)
    (hib : inc.value = some incBytes)
    (httl : inc.ttl = kTtlInfinity ∨ 0 < inc.ttl) :
    ∃ st2 delta, mergeKeyValues st [(k, inc)] none = some (st2, delta) ∧
      ((cur.version < inc.version ∨
          (inc.version = cur.version ∧ strLt cur.originatorId inc.originatorId = true) ∨
          (inc.version = cur.version ∧ inc.originatorId = cur.originatorId ∧
            strLt curBytes incBytes = true) →
        st2 k = some (fillHash inc) ∧ delta = [(k, inc)]) ∧
      (inc.version = cur.version ∧ inc.originatorId = cur.originatorId ∧
          incBytes = curBytes ∧ cur.ttlVersion < inc.ttlVersion →
        st2 k = some { cur with ttl := inc.ttl, ttlVersion := inc.ttlVersion } ∧
        delta = [(k, inc)]) ∧
      (¬(cur.version < inc.version ∨
          (inc.version = cur.version ∧ strLt cur.originatorId inc.originatorId = true) ∨
          (inc.version = cur.version ∧ inc.originatorId = cur.originatorId ∧
            strLt curBytes incBytes = true)) →
        ¬(inc.version = cur.version ∧ inc.originatorId = cur.originatorId ∧
          incBytes = curBytes ∧ cur.ttlVersion < inc.ttlVersion) →
        st2 k = some cur ∧ delta = [])) := by
  have hg : cur.value.getD "" = curBytes := by rw [hcb]; rfl
  by_cases hstale : inc.version < cur.version
  · -- incoming is older: skipped
    have hm : mergeOne none k inc (st k) = some (some cur, false) := by
      rw [hcur]
      unfold mergeOne
      rw [if_neg (show ¬ ((none : Option KvStoreFilters).elim false
          fun fl => !(fl.keyMatch k inc)) = true by simp [Option.elim])]
      rw [if_neg (show ¬ (inc.ttl ≠ kTtlInfinity ∧ inc.ttl ≤ 0) by
        rcases httl with h | h
        · exact fun hc => hc.1 h
        · exact fun hc => by omega)]
      dsimp only []
      rw [if_pos hstale]
    refine ⟨updateStore st k (some cur), [], ?_, ?_, ?_, ?_⟩
    · unfold mergeKeyValues mergeKeyValuesAux
      rw [hm]
      rfl
    · intro hstrict
      exfalso
      rcases hstrict with h | h | h
      · omega
      · omega
      · omega
    · rintro ⟨h1, -, -, -⟩
      omega
    · intro _ _
      exact ⟨updateStore_same st k _, rfl⟩
  · have hadm := mergeOne_admissible k inc cur incBytes hib httl hstale
    rw [hg] at hadm
    by_cases hgt : cur.version < inc.version
    · -- strictly newer version: full update
      have hm : mergeOne none k inc (st k) = some (some (fillHash inc), true) := by
        rw [hcur, hadm, if_pos hgt]
      refine ⟨updateStore st k (some (fillHash inc)), [(k, inc)], ?_, ?_, ?_, ?_⟩
      · unfold mergeKeyValues mergeKeyValuesAux
        rw [hm]
        rfl
      · intro _
        exact ⟨updateStore_same st k _, rfl⟩
      · rintro ⟨h1, -, -, -⟩
        omega
      · intro hn _
        exact absurd (Or.inl hgt) hn
    · have hveq : inc.version = cur.version := by omega
      by_cases ho1 : strLt cur.originatorId inc.originatorId = true
      · -- equal version, larger originator: full update
        have hm : mergeOne none k inc (st k) = some (some (fillHash inc), true) := by
          rw [hcur, hadm, if_neg (show ¬ inc.version > cur.version by omega), if_pos ho1]
        refine ⟨updateStore st k (some (fillHash inc)), [(k, inc)], ?_, ?_, ?_, ?_⟩
        · unfold mergeKeyValues mergeKeyValuesAux
          rw [hm]
          rfl
        · intro _
          exact ⟨updateStore_same st k _, rfl⟩
        · rintro ⟨-, h2, -, -⟩
          rw [h2, strLt_irrefl] at ho1
          exact Bool.noConfusion ho1
        · intro hn _
          exact absurd (Or.inr (Or.inl ⟨hveq, ho1⟩)) hn
      · by_cases ho2 : inc.originatorId = cur.originatorId
        · by_cases hb1 : strLt curBytes incBytes = true
          · -- equal version and originator, larger value bytes: full update
            have hm : mergeOne none k inc (st k) = some (some (fillHash inc), true) := by
              rw [hcur, hadm, if_neg (show ¬ inc.version > cur.version by omega),
                if_neg ho1, if_pos ho2, if_pos (compareString_pos_iff.mpr hb1)]
            refine ⟨updateStore st k (some (fillHash inc)), [(k, inc)], ?_, ?_, ?_, ?_⟩
            · unfold mergeKeyValues mergeKeyValuesAux
              rw [hm]
              rfl
            · intro _
              exact ⟨updateStore_same st k _, rfl⟩
            · rintro ⟨-, -, h3, -⟩
              rw [h3, strLt_irrefl] at hb1
              exact Bool.noConfusion hb1
            · intro hn _
              exact absurd (Or.inr (Or.inr ⟨hveq, ho2, hb1⟩)) hn
          · have hb1f : strLt curBytes incBytes = false := by simpa using hb1
            have hrcle : compareString incBytes curBytes ≤ 0 :=
              compareString_nonpos_of_not hb1f
            by_cases hb2 : incBytes = curBytes
            · by_cases ht : cur.ttlVersion < inc.ttlVersion
              · -- identical value, larger ttlVersion: TTL-only update
                have hm : mergeOne none k inc (st k) =
                    some
                      (some { cur with ttl := inc.ttl, ttlVersion := inc.ttlVersion }, true) := by
                  rw [hcur, hadm, if_neg (show ¬ inc.version > cur.version by omega),
                    if_neg ho1, if_pos ho2,
                    if_neg (show ¬ compareString incBytes curBytes > 0 by omega),
                    if_pos ⟨compareString_eq_zero_iff.mpr hb2, ht⟩]
                refine ⟨updateStore st k
                  (some { cur with ttl := inc.ttl, ttlVersion := inc.ttlVersion }),
                  [(k, inc)], ?_, ?_, ?_, ?_⟩
                · unfold mergeKeyValues mergeKeyValuesAux
                  rw [hm]
                  rfl
                · intro hstrict
                  exfalso
                  rcases hstrict with h | h | h
                  · omega
                  · rw [h.2] at ho1
                    exact ho1 rfl
                  · rw [h.2.2] at hb1
                    exact hb1 rfl
                · intro _
                  exact ⟨updateStore_same st k _, rfl⟩
                · intro _ hn2
                  exact absurd ⟨hveq, ho2, hb2, ht⟩ hn2
              · -- identical record, no larger ttlVersion: kept
                have hm : mergeOne none k inc (st k) = some (some cur, false) := by
                  rw [hcur, hadm, if_neg (show ¬ inc.version > cur.version by omega),
                    if_neg ho1, if_pos ho2,
                    if_neg (show ¬ compareString incBytes curBytes > 0 by omega),
                    if_neg (show ¬ (compareString incBytes curBytes = 0 ∧
                      inc.ttlVersion > cur.ttlVersion) from fun hc => ht hc.2)]
                refine ⟨updateStore st k (some cur), [], ?_, ?_, ?_, ?_⟩
                · unfold mergeKeyValues mergeKeyValuesAux
                  rw [hm]
                  rfl
                · intro hstrict
                  exfalso
                  rcases hstrict with h | h | h
                  · omega
                  · rw [h.2] at ho1
                    exact ho1 rfl
                  · rw [h.2.2] at hb1
                    exact hb1 rfl
                · rintro ⟨-, -, -, h4⟩
                  exact absurd h4 ht
                · intro _ _
                  exact ⟨updateStore_same st k _, rfl⟩
            · -- equal version and originator, smaller value bytes: kept
              have hm : mergeOne none k inc (st k) = some (some cur, false) := by
                rw [hcur, hadm, if_neg (show ¬ inc.version > cur.version by omega),
                  if_neg ho1, if_pos ho2,
                  if_neg (show ¬ compareString incBytes curBytes > 0 by omega),
                  if_neg (show ¬ (compareString incBytes curBytes = 0 ∧
                    inc.ttlVersion > cur.ttlVersion) from
                    fun hc => hb2 (compareString_eq_zero_iff.mp hc.1))]
              refine ⟨updateStore st k (some cur), [], ?_, ?_, ?_, ?_⟩
              · unfold mergeKeyValues mergeKeyValuesAux
                rw [hm]
                rfl
              · intro hstrict
                exfalso
                rcases hstrict with h | h | h
                · omega
                · rw [h.2] at ho1
                  exact ho1 rfl
                · rw [h.2.2] at hb1
                  exact hb1 rfl
              · rintro ⟨-, -, h3, -⟩
                exact absurd h3 hb2
              · intro _ _
                exact ⟨updateStore_same st k _, rfl⟩
        · -- equal version, smaller originator: kept
          have hm : mergeOne none k inc (st k) = some (some cur, false) := by
            rw [hcur, hadm, if_neg (show ¬ inc.version > cur.version by omega),
              if_neg ho1, if_neg ho2]
          refine ⟨updateStore st k (some cur), [], ?_, ?_, ?_, ?_⟩
          · unfold mergeKeyValues mergeKeyValuesAux
            rw [hm]
            rfl
          · intro hstrict
            exfalso
            rcases hstrict with h | h | h
            · omega
            · rw [h.2] at ho1
              exact ho1 rfl
            · exact ho2 h.2.1
          · rintro ⟨-, h2, -, -⟩
            exact absurd h2 ho2
          · intro _ _
            exact ⟨updateStore_same st k _, rfl⟩

theorem mergeKeyValues_resolution_witness :
    ∃ st2 delta,
      mergeKeyValues
          (updateStore emptyStore "a"
            (some { version := 1, originatorId := "x", value := some "A", ttlVersion := 0,
                    ttl := 60000, hash := none }))
          [("a", { version := 1, originatorId := "y", value := some "B", ttlVersion := 0,
                   ttl := 60000, hash := none })] none = some (st2, delta) ∧
      st2 "a" =
        some (fillHash { version := 1, originatorId := "y", value := some "B",
                         ttlVersion := 0, ttl := 60000, hash := none }) ∧
      delta = [("a", { version := 1, originatorId := "y", value := some "B",
                       ttlVersion := 0, ttl := 60000, hash := none })] := by
  obtain ⟨st2, delta, hmerge, hwin, -, -⟩ :=
    mergeKeyValues_resolution
      (updateStore emptyStore "a"
        (some { version := 1, originatorId := "x", value := some "A", ttlVersion := 0,
                ttl := 60000, hash := none }))
      "a"
      { version := 1, originatorId := "y", value := some "B", ttlVersion := 0,
        ttl := 60000, hash := none }
      { version := 1, originatorId := "x", value := some "A", ttlVersion := 0,
        ttl := 60000, hash := none }
      "B" "A" rfl rfl rfl (Or.inr (by decide))
  obtain ⟨h1, h2⟩ := hwin (Or.inr (Or.inl (by exact ⟨rfl, by decide⟩)))
  exact ⟨st2, delta, hmerge, h1, h2⟩

theorem fillHash_version (v : Value) : (fillHash v).version = v.version := by
  unfold fillHash
  cases v.hash <;> rfl

theorem fillHash_originatorId (v : Value) : (fillHash v).originatorId = v.originatorId := by
  unfold fillHash
  cases v.hash <;> rfl

theorem versionOrigLe_refl (a : Value) : versionOrigLe a a :=
  Or.inr ⟨rfl, Or.inr rfl⟩

theorem versionOrigLe_trans {a b c : Value} (h1 : versionOrigLe a b)
    (h2 : versionOrigLe b c) : versionOrigLe a c := by
  rcases h1 with h1 | ⟨h1v, h1o⟩
  · rcases h2 with h2 | ⟨h2v, -⟩
    · exact Or.inl (lt_trans h1 h2)
    · exact Or.inl (by omega)
  · rcases h2 with h2 | ⟨h2v, h2o⟩
    · exact Or.inl (by omega)
    · refine Or.inr ⟨by omega, ?_⟩
      rcases h1o with h1o | h1o
      · rcases h2o with h2o | h2o
        · exact Or.inl (strLt_trans h1o h2o)
        · exact Or.inl (by rw [← h2o]; exact h1o)
      · rcases h2o with h2o | h2o
        · exact Or.inl (by rw [h1o]; exact h2o)
        · exact Or.inr (h1o.trans h2o)

theorem mergeOne_versionOrigLe (f : Option KvStoreFilters) (k : String) (v c : Value)
    (nc : Option Value) (u : Bool) (hm : mergeOne f k v (some c) = some (nc, u)) :
    ∃ c', nc = some c' ∧ versionOrigLe c c' := by
  unfold mergeOne at hm
  dsimp only [] at hm
  cases hvv : v.value with
  | some b =>
    rw [hvv] at hm
    dsimp only [] at hm
    split_ifs at hm with h1 h2 h3 h4 h5 h6 h7
    all_goals
      simp only [Option.some.injEq, Prod.mk.injEq] at hm
    · exact ⟨c, hm.1.symm, versionOrigLe_refl c⟩
    · exact ⟨c, hm.1.symm, versionOrigLe_refl c⟩
    · exact ⟨c, hm.1.symm, versionOrigLe_refl c⟩
    · exact ⟨fillHash v, hm.1.symm, Or.inl (by rw [fillHash_version]; omega)⟩
    · exact ⟨fillHash v, hm.1.symm,
        Or.inr ⟨by rw [fillHash_version]; omega, Or.inl (by rw [fillHash_originatorId]; exact h5)⟩⟩
    · exact ⟨fillHash v, hm.1.symm,
        Or.inr ⟨by rw [fillHash_version]; omega,
          Or.inr (by rw [fillHash_originatorId]; exact h6.symm)⟩⟩
    · exact ⟨{ c with ttl := v.ttl, ttlVersion := v.ttlVersion }, hm.1.symm,
        Or.inr ⟨rfl, Or.inr rfl⟩⟩
    · exact ⟨c, hm.1.symm, versionOrigLe_refl c⟩
    · exact ⟨c, hm.1.symm, versionOrigLe_refl c⟩
  | none =>
    rw [hvv] at hm
    dsimp only [] at hm
    split_ifs at hm with h1 h2 h3 h4
    all_goals
      simp only [Option.some.injEq, Prod.mk.injEq] at hm
    · exact ⟨c, hm.1.symm, versionOrigLe_refl c⟩
    · exact ⟨c, hm.1.symm, versionOrigLe_refl c⟩
    · exact ⟨c, hm.1.symm, versionOrigLe_refl c⟩
    · exact ⟨{ c with ttl := v.ttl, ttlVersion := v.ttlVersion }, hm.1.symm,
        Or.inr ⟨rfl, Or.inr rfl⟩⟩
    · exact ⟨c, hm.1.symm, versionOrigLe_refl c⟩

theorem mergeKeyValuesAux_versionOrigLe (f : Option KvStoreFilters)
    {st : Store} {delta l : List (String × Value)} {st2 : Store}
    {delta2 : List (String × Value)}
    (haux : mergeKeyValuesAux f st delta l = some (st2, delta2))
    (k : String) (c : Value) (hc : st k = some c) :
    ∃ c', st2 k = some c' ∧ versionOrigLe c c' := by
  induction l generalizing st delta c with
  | nil =>
    unfold mergeKeyValuesAux at haux
    simp only [Option.some.injEq, Prod.mk.injEq] at haux
    rw [← haux.1]
    exact ⟨c, hc, versionOrigLe_refl c⟩
  | cons p rest ih =>
    obtain ⟨k0, v0⟩ := p
    unfold mergeKeyValuesAux at haux
    cases hm : mergeOne f k0 v0 (st k0) with
    | none => rw [hm] at haux; simp at haux
    | some r =>
      obtain ⟨nc, u⟩ := r
      rw [hm] at haux
      dsimp only [] at haux
      by_cases hk : k = k0
      · subst hk
        rw [hc] at hm
        obtain ⟨c1, hnc, hle⟩ := mergeOne_versionOrigLe f k v0 c nc u hm
        subst hnc
        obtain ⟨c2, hc2, hle2⟩ := ih haux c1 (updateStore_same st k (some c1))
        exact ⟨c2, hc2, versionOrigLe_trans hle hle2⟩
      · obtain ⟨c2, hc2, hle2⟩ :=
          ih haux c (by rw [updateStore_other st k0 k nc hk]; exact hc)
        exact ⟨c2, hc2, hle2⟩

/-- Claim C5: for every key and every sequence of mergeKeyValues calls applied
to a store, the (version, originatorId) pair of the record stored under that
key never decreases in lexicographic order (version compared numerically
first, then originatorId byte-lexicographically). -/
theorem applyBatches_no_downgrade
    (batches : List (List (String × Value) × Option KvStoreFilters))
    (st st2 : Store) (k : String) (cur : Value)
    (happ : applyBatches st batches = some st2) (hc : st k = some cur) :
    ∃ cur2, st2 k = some cur2 ∧ versionOrigLe cur cur2 := by
  induction batches generalizing st cur with
  | nil =>
    unfold applyBatches at happ
    simp only [Option.some.injEq] at happ
    rw [← happ]
    exact ⟨cur, hc, versionOrigLe_refl cur⟩
  | cons b rest ih =>
    obtain ⟨batch, f⟩ := b
    unfold applyBatches at happ
    cases hm : mergeKeyValues st batch f with
    | none => rw [hm] at happ; simp at happ
    | some r =>
      obtain ⟨st1, delta⟩ := r
      rw [hm] at happ
      dsimp only [] at happ
      obtain ⟨c1, hc1, hle1⟩ := mergeKeyValuesAux_versionOrigLe f hm k cur hc
      obtain ⟨c2, hc2, hle2⟩ := ih st1 c1 happ hc1
      exact ⟨c2, hc2, versionOrigLe_trans hle1 hle2⟩

theorem applyBatches_no_downgrade_witness :
    ∃ cur2,
      updateStore (updateStore emptyStore "a"
          (some { version := 1, originatorId := "x", value := some "A", ttlVersion := 0,
                  ttl := 60000, hash := some 3 })) "a"
        (some (fillHash { version := 2, originatorId := "w", value := some "B",
                          ttlVersion := 0, ttl := 60000, hash := some 4 })) "a" =
        some cur2 ∧
      versionOrigLe
        { version := 1, originatorId := "x", value := some "A", ttlVersion := 0,
          ttl := 60000, hash := some 3 } cur2 :=
  applyBatches_no_downgrade
    [([("a", { version := 2, originatorId := "w", value := some "B", ttlVersion := 0,
               ttl := 60000, hash := some 4 })], none)]
    (updateStore emptyStore "a"
      (some { version := 1, originatorId := "x", value := some "A", ttlVersion := 0,
              ttl := 60000, hash := some 3 }))
    (updateStore (updateStore emptyStore "a"
        (some { version := 1, originatorId := "x", value := some "A", ttlVersion := 0,
                ttl := 60000, hash := some 3 })) "a"
      (some (fillHash { version := 2, originatorId := "w", value := some "B",
                        ttlVersion := 0, ttl := 60000, hash := some 4 })))
    "a"
    { version := 1, originatorId := "x", value := some "A", ttlVersion := 0,
      ttl := 60000, hash := some 3 }
    rfl rfl

theorem mem_dumpDiffLoop_fst (myKeyVal reqKeyVal : List (String × Value))
    (keys : List String) (k : String) (v : Value) :
    (k, v) ∈ (dumpDiffLoop myKeyVal reqKeyVal keys).1 ↔
      (k ∈ keys ∧ lookupKey k myKeyVal = some v ∧
        (lookupKey k reqKeyVal = none ∨
          ∃ rv, lookupKey k reqKeyVal = some rv ∧
            (compareValues v rv = 1 ∨ compareValues v rv = -2))) := by
  induction keys with
  | nil => simp [dumpDiffLoop]
  | cons key rest ih =>
    by_cases hk : k = key
    · subst hk
      cases hmy : lookupKey k myKeyVal with
      | none => simp [dumpDiffLoop, hmy, ih]
      | some mv =>
        cases hreq : lookupKey k reqKeyVal with
        | none =>
          have hfst : (dumpDiffLoop myKeyVal reqKeyVal (k :: rest)).1 =
              (k, mv) :: (dumpDiffLoop myKeyVal reqKeyVal rest).1 := by
            simp [dumpDiffLoop, hmy, hreq]
          rw [hmy, hreq] at ih
          rw [hfst, List.mem_cons, ih]
          constructor
          · rintro (heq | ⟨hmem, hsome, hdisj⟩)
            · have hv : v = mv := congrArg Prod.snd heq
              exact ⟨List.mem_cons_self _ _, by rw [hv], Or.inl rfl⟩
            · exact ⟨List.mem_cons_of_mem _ hmem, hsome, hdisj⟩
          · rintro ⟨-, hsome, -⟩
            have hv : mv = v := Option.some.inj hsome
            exact Or.inl (by rw [hv])
        | some rv =>
          by_cases hc : compareValues mv rv = 1 ∨ compareValues mv rv = -2
          · have hfst : (dumpDiffLoop myKeyVal reqKeyVal (k :: rest)).1 =
                (k, mv) :: (dumpDiffLoop myKeyVal reqKeyVal rest).1 := by
              simp [dumpDiffLoop, hmy, hreq, hc]
            rw [hmy, hreq] at ih
            rw [hfst, List.mem_cons, ih]
            constructor
            · rintro (heq | ⟨hmem, hsome, hdisj⟩)
              · have hv : v = mv := congrArg Prod.snd heq
                exact ⟨List.mem_cons_self _ _, by rw [hv],
                  Or.inr ⟨rv, rfl, by rw [hv]; exact hc⟩⟩
              · exact ⟨List.mem_cons_of_mem _ hmem, hsome, hdisj⟩
            · rintro ⟨-, hsome, -⟩
              have hv : mv = v := Option.some.inj hsome
              exact Or.inl (by rw [hv])
          · have hfst : (dumpDiffLoop myKeyVal reqKeyVal (k :: rest)).1 =
                (dumpDiffLoop myKeyVal reqKeyVal rest).1 := by
              simp [dumpDiffLoop, hmy, hreq, hc]
            rw [hmy, hreq] at ih
            rw [hfst, ih]
            constructor
            · rintro ⟨hmem, hsome, hdisj⟩
              exact ⟨List.mem_cons_of_mem _ hmem, hsome, hdisj⟩
            · rintro ⟨-, hsome, hdisj⟩
              exfalso
              have hv : mv = v := Option.some.inj hsome
              rcases hdisj with hd | ⟨rv2, hrv2, hd⟩
              · exact Option.noConfusion hd
              · have hrv : rv2 = rv := (Option.some.inj hrv2).symm
                subst hrv
                rw [← hv] at hd
                exact hc hd
    · cases hmy : lookupKey key myKeyVal with
      | none => simp [dumpDiffLoop, hmy, ih, hk]
      | some mv =>
        cases hreq : lookupKey key reqKeyVal with
        | none => simp [dumpDiffLoop, hmy, hreq, ih, hk, Ne.symm hk]
        | some rv =>
          by_cases hc : compareValues mv rv = 1 ∨ compareValues mv rv = -2 <;>
            simp [dumpDiffLoop, hmy, hreq, ih, hk, Ne.symm hk, hc]

theorem mem_dumpDiffLoop_snd (myKeyVal reqKeyVal : List (String × Value))
    (keys : List String) (k : String) :
    k ∈ (dumpDiffLoop myKeyVal reqKeyVal keys).2 ↔
      (k ∈ keys ∧
        (lookupKey k myKeyVal = none ∨
          ∃ mv rv, lookupKey k myKeyVal = some mv ∧ lookupKey k reqKeyVal = some rv ∧
            (compareValues mv rv = -1 ∨ compareValues mv rv = -2))) := by
  induction keys with
  | nil => simp [dumpDiffLoop]
  | cons key rest ih =>
    by_cases hk : k = key
    · subst hk
      cases hmy : lookupKey k myKeyVal with
      | none => simp [dumpDiffLoop, hmy, ih]
      | some mv =>
        cases hreq : lookupKey k reqKeyVal with
        | none => simp [dumpDiffLoop, hmy, hreq, ih]
        | some rv =>
          by_cases hc : compareValues mv rv = -1 ∨ compareValues mv rv = -2 <;>
            simp [dumpDiffLoop, hmy, hreq, ih, hc]
    · cases hmy : lookupKey key myKeyVal with
      | none => simp [dumpDiffLoop, hmy, ih, hk]
      | some mv =>
        cases hreq : lookupKey key reqKeyVal with
        | none => simp [dumpDiffLoop, hmy, hreq, ih, hk]
        | some rv =>
          by_cases hc : compareValues mv rv = -1 ∨ compareValues mv rv = -2 <;>
            simp [dumpDiffLoop, hmy, hreq, ih, hk, hc]

theorem lookupKey_ne_none_iff {k : String} {l : List (String × Value)} :
    lookupKey k l ≠ none ↔ k ∈ l.map Prod.fst := by
  rw [Ne, lookupKey_eq_none_iff, not_not]

theorem mem_map_fst {l : List (String × Value)} {k : String} :
    k ∈ l.map Prod.fst ↔ ∃ v, (k, v) ∈ l := by
  constructor
  · intro h
    obtain ⟨⟨k2, v⟩, hmem, heq⟩ := List.mem_map.mp h
    cases heq
    exact ⟨v, hmem⟩
  · rintro ⟨v, h⟩
    exact List.mem_map_of_mem Prod.fst h

/-- Claim C3: for every area and every pair of key-value maps mine and theirs,
dumpDifference(area, mine, theirs) places a key present only in mine into
keyVals, a key present only in theirs into tobeUpdatedKeys, and, for a key
present in both with c = compareValues(mine[key], theirs[key]), places it into
keyVals exactly when c == 1, into tobeUpdatedKeys exactly when c == -1, into
neither when c == 0, and into both when c == -2. -/
theorem dumpDifference_spec (area : String) (myKeyVal reqKeyVal : List (String × Value))
    (k : String) :
    (lookupKey k myKeyVal ≠ none → lookupKey k reqKeyVal = none →
      k ∈ (dumpDifference area myKeyVal reqKeyVal).keyVals.map Prod.fst ∧
      k ∉ (dumpDifference area myKeyVal reqKeyVal).tobeUpdatedKeys) ∧
    (lookupKey k myKeyVal = none → lookupKey k reqKeyVal ≠ none →
      k ∈ (dumpDifference area myKeyVal reqKeyVal).tobeUpdatedKeys ∧
      k ∉ (dumpDifference area myKeyVal reqKeyVal).keyVals.map Prod.fst) ∧
    (∀ mv rv, lookupKey k myKeyVal = some mv → lookupKey k reqKeyVal = some rv →
      ((k ∈ (dumpDifference area myKeyVal reqKeyVal).keyVals.map Prod.fst ↔
          (compareValues mv rv = 1 ∨ compareValues mv rv = -2)) ∧
       (k ∈ (dumpDifference area myKeyVal reqKeyVal).tobeUpdatedKeys ↔
          (compareValues mv rv = -1 ∨ compareValues mv rv = -2)))) := by
  have hkv : (dumpDifference area myKeyVal reqKeyVal).keyVals =
      (dumpDiffLoop myKeyVal reqKeyVal
        ((myKeyVal.map Prod.fst ++ reqKeyVal.map Prod.fst).dedup)).1 := rfl
  have htb : (dumpDifference area myKeyVal reqKeyVal).tobeUpdatedKeys =
      (dumpDiffLoop myKeyVal reqKeyVal
        ((myKeyVal.map Prod.fst ++ reqKeyVal.map Prod.fst).dedup)).2 := rfl
  refine ⟨?_, ?_, ?_⟩
  · intro hmy hreq
    cases h : lookupKey k myKeyVal with
    | none => exact absurd h hmy
    | some mv =>
      have hall : k ∈ (myKeyVal.map Prod.fst ++ reqKeyVal.map Prod.fst).dedup :=
        List.mem_dedup.mpr (List.mem_append.mpr (Or.inl (lookupKey_ne_none_iff.mp hmy)))
      constructor
      · rw [hkv]
        exact mem_map_fst.mpr ⟨mv,
          (mem_dumpDiffLoop_fst myKeyVal reqKeyVal _ k mv).mpr ⟨hall, h, Or.inl hreq⟩⟩
      · rw [htb]
        intro hmem
        obtain ⟨-, hdisj⟩ := (mem_dumpDiffLoop_snd myKeyVal reqKeyVal _ k).mp hmem
        rcases hdisj with hd | ⟨mv2, rv2, -, hr2, -⟩
        · exact hmy hd
        · rw [hreq] at hr2
          exact Option.noConfusion hr2
  · intro hmy hreq
    have hall : k ∈ (myKeyVal.map Prod.fst ++ reqKeyVal.map Prod.fst).dedup :=
      List.mem_dedup.mpr (List.mem_append.mpr (Or.inr (lookupKey_ne_none_iff.mp hreq)))
    constructor
    · rw [htb]
      exact (mem_dumpDiffLoop_snd myKeyVal reqKeyVal _ k).mpr ⟨hall, Or.inl hmy⟩
    · rw [hkv]
      intro hmem
      obtain ⟨v, hv⟩ := mem_map_fst.mp hmem
      obtain ⟨-, hsome, -⟩ := (mem_dumpDiffLoop_fst myKeyVal reqKeyVal _ k v).mp hv
      rw [hmy] at hsome
      exact Option.noConfusion hsome
  · intro mv rv hmv hrv
    have hall : k ∈ (myKeyVal.map Prod.fst ++ reqKeyVal.map Prod.fst).dedup :=
      List.mem_dedup.mpr (List.mem_append.mpr (Or.inl (lookupKey_ne_none_iff.mp
        (by rw [hmv]; exact Option.noConfusion))))
    constructor
    · rw [hkv]
      constructor
      · intro hmem
        obtain ⟨v, hv⟩ := mem_map_fst.mp hmem
        obtain ⟨-, hsome, hdisj⟩ := (mem_dumpDiffLoop_fst myKeyVal reqKeyVal _ k v).mp hv
        rw [hmv] at hsome
        have hveq : mv = v := Option.some.inj hsome
        subst hveq
        rcases hdisj with hd | ⟨rv2, hrv2, hcond⟩
        · rw [hrv] at hd
          exact Option.noConfusion hd
        · rw [hrv] at hrv2
          have : rv = rv2 := Option.some.inj hrv2
          subst this
          exact hcond
      · intro hcond
        exact mem_map_fst.mpr ⟨mv,
          (mem_dumpDiffLoop_fst myKeyVal reqKeyVal _ k mv).mpr
            ⟨hall, hmv, Or.inr ⟨rv, hrv, hcond⟩⟩⟩
    · rw [htb]
      constructor
      · intro hmem
        obtain ⟨-, hdisj⟩ := (mem_dumpDiffLoop_snd myKeyVal reqKeyVal _ k).mp hmem
        rcases hdisj with hd | ⟨mv2, rv2, hm2, hr2, hcond⟩
        · rw [hmv] at hd
          exact Option.noConfusion hd
        · rw [hmv] at hm2
          rw [hrv] at hr2
          have h1 : mv = mv2 := Option.some.inj hm2
          have h2 : rv = rv2 := Option.some.inj hr2
          subst h1
          subst h2
          exact hcond
      · intro hcond
        exact (mem_dumpDiffLoop_snd myKeyVal reqKeyVal _ k).mpr
          ⟨hall, Or.inr ⟨mv, rv, hmv, hrv, hcond⟩⟩

theorem dumpDifference_spec_witness :
    "b" ∈ (dumpDifference "0"
        [("b", { version := 1, originatorId := "y", value := some "n", ttlVersion := 0,
                 ttl := 1, hash := none })] []).keyVals.map Prod.fst ∧
    "b" ∉ (dumpDifference "0"
        [("b", { version := 1, originatorId := "y", value := some "n", ttlVersion := 0,
                 ttl := 1, hash := none })] []).tobeUpdatedKeys :=
  (dumpDifference_spec "0"
      [("b", { version := 1, originatorId := "y", value := some "n", ttlVersion := 0,
               ttl := 1, hash := none })] [] "b").1 (by decide) rfl

/-- Proof scaffolding: the record stored under `k` after one merge pass over a
batch with pairwise-distinct keys, as a function of the original store. -/
def mergedAt (f : Option KvStoreFilters) (st : Store) (l : List (String × Value))
    (k : String) : Option Value :=
  match lookupKey k l with
  | none => st k
  | some v =>
      match mergeOne f k v (st k) with
      | some (nc, _) => nc
      | none => st k

theorem lookupKey_perm {l1 l2 : List (String × Value)} (hperm : l1.Perm l2)
    (hnd : (l1.map Prod.fst).Nodup) (k : String) : lookupKey k l1 = lookupKey k l2 := by
  cases h : lookupKey k l1 with
  | some v =>
    have hmem : (k, v) ∈ l2 := hperm.mem_iff.mp (mem_of_lookupKey_eq_some h)
    have hnd2 : (l2.map Prod.fst).Nodup := ((hperm.map Prod.fst).nodup_iff).mp hnd
    exact (lookupKey_eq_some_of_mem_nodup hnd2 hmem).symm
  | none =>
    have hni : k ∉ l2.map Prod.fst := by
      rw [← (hperm.map Prod.fst).mem_iff]
      exact lookupKey_eq_none_iff.mp h
    exact (lookupKey_eq_none_iff.mpr hni).symm

theorem mergeKeyValuesAux_eq_none_iff (f : Option KvStoreFilters) (st : Store)
    (delta l : List (String × Value)) (hnd : (l.map Prod.fst).Nodup) :
    mergeKeyValuesAux f st delta l = none ↔
      ∃ p ∈ l, mergeOne f p.1 p.2 (st p.1) = none := by
  induction l generalizing st delta with
  | nil => simp [mergeKeyValuesAux]
  | cons p rest ih =>
    obtain ⟨k0, v0⟩ := p
    simp only [List.map_cons, List.nodup_cons] at hnd
    unfold mergeKeyValuesAux
    cases hm : mergeOne f k0 v0 (st k0) with
    | none =>
      constructor
      · intro _
        exact ⟨(k0, v0), List.mem_cons_self _ _, hm⟩
      · intro _
        rfl
    | some r =>
      obtain ⟨nc, u⟩ := r
      dsimp only []
      rw [ih (updateStore st k0 nc) _ hnd.2]
      constructor
      · rintro ⟨p, hp, hcrash⟩
        have hne : p.1 ≠ k0 := by
          intro he
          exact hnd.1 (he ▸ List.mem_map_of_mem Prod.fst hp)
        rw [updateStore_other st k0 p.1 nc hne] at hcrash
        exact ⟨p, List.mem_cons_of_mem _ hp, hcrash⟩
      · rintro ⟨p, hp, hcrash⟩
        rcases List.mem_cons.mp hp with he | hp2
        · subst he
          rw [hcrash] at hm
          exact Option.noConfusion hm
        · have hne : p.1 ≠ k0 := by
            intro he
            exact hnd.1 (he ▸ List.mem_map_of_mem Prod.fst hp2)
          exact ⟨p, hp2, by rw [updateStore_other st k0 p.1 nc hne]; exact hcrash⟩

theorem mergeKeyValuesAux_final_char (f : Option KvStoreFilters)
    {st : Store} {delta l : List (String × Value)} {st2 : Store}
    {delta2 : List (String × Value)} (hnd : (l.map Prod.fst).Nodup)
    (haux : mergeKeyValuesAux f st delta l = some (st2, delta2)) (k : String) :
    st2 k = mergedAt f st l k := by
  induction l generalizing st delta with
  | nil =>
    unfold mergeKeyValuesAux at haux
    simp only [Option.some.injEq, Prod.mk.injEq] at haux
    rw [← haux.1]
    rfl
  | cons p rest ih =>
    obtain ⟨k0, v0⟩ := p
    simp only [List.map_cons, List.nodup_cons] at hnd
    unfold mergeKeyValuesAux at haux
    cases hm : mergeOne f k0 v0 (st k0) with
    | none =>
      rw [hm] at haux
      simp at haux
    | some r =>
      obtain ⟨nc, u⟩ := r
      rw [hm] at haux
      dsimp only [] at haux
      by_cases hk : k = k0
      · subst hk
        have hrest : lookupKey k rest = none := lookupKey_eq_none_iff.mpr hnd.1
        have hstep := ih hnd.2 haux
        rw [hstep]
        unfold mergedAt
        rw [hrest]
        dsimp only []
        rw [updateStore_same]
        have hlk : lookupKey k ((k, v0) :: rest) = some v0 := by simp [lookupKey]
        rw [hlk]
        dsimp only []
        rw [hm]
      · have hstep := ih hnd.2 haux
        rw [hstep]
        unfold mergedAt
        rw [updateStore_other st k0 k nc hk]
        have hlk : lookupKey k ((k0, v0) :: rest) = lookupKey k rest := by
          simp [lookupKey, hk]
        rw [hlk]

/-- Claim C8: for every store and every two incoming batches containing
exactly the same key-to-record pairs (one a permutation of the other in
processing order), mergeKeyValues applied to copies of the store yields
identical final stores. -/
theorem mergeKeyValues_perm_deterministic (st : Store) (l1 l2 : List (String × Value))
    (f : Option KvStoreFilters) (hperm : l1.Perm l2)
    (hnd : (l1.map Prod.fst).Nodup) :
    (mergeKeyValues st l1 f).map Prod.fst = (mergeKeyValues st l2 f).map Prod.fst := by
  have hnd2 : (l2.map Prod.fst).Nodup := ((hperm.map Prod.fst).nodup_iff).mp hnd
  have hlk : ∀ k, lookupKey k l1 = lookupKey k l2 := lookupKey_perm hperm hnd
  cases h1 : mergeKeyValues st l1 f with
  | none =>
    obtain ⟨p, hp, hc⟩ := (mergeKeyValuesAux_eq_none_iff f st [] l1 hnd).mp h1
    have h2 : mergeKeyValues st l2 f = none :=
      (mergeKeyValuesAux_eq_none_iff f st [] l2 hnd2).mpr ⟨p, hperm.mem_iff.mp hp, hc⟩
    rw [h2]
  | some r1 =>
    obtain ⟨st1, delta1⟩ := r1
    cases h2 : mergeKeyValues st l2 f with
    | none =>
      obtain ⟨p, hp, hc⟩ := (mergeKeyValuesAux_eq_none_iff f st [] l2 hnd2).mp h2
      have hcontra : mergeKeyValues st l1 f = none :=
        (mergeKeyValuesAux_eq_none_iff f st [] l1 hnd).mpr ⟨p, hperm.mem_iff.mpr hp, hc⟩
      rw [h1] at hcontra
      exact Option.noConfusion hcontra
    | some r2 =>
      obtain ⟨st2, delta2⟩ := r2
      have hs1 := mergeKeyValuesAux_final_char f hnd h1
      have hs2 := mergeKeyValuesAux_final_char f hnd2 h2
      simp only [Option.map_some']
      congr 1
      funext k
      rw [hs1 k, hs2 k]
      unfold mergedAt
      rw [hlk k]

theorem mergeKeyValues_perm_deterministic_witness :
    (mergeKeyValues emptyStore
        [("a", { version := 1, originatorId := "x", value := some "A", ttlVersion := 0,
                 ttl := 60000, hash := some 1 }),
         ("b", { version := 1, originatorId := "y", value := some "B", ttlVersion := 0,
                 ttl := 60000, hash := some 2 })] none).map Prod.fst =
    (mergeKeyValues emptyStore
        [("b", { version := 1, originatorId := "y", value := some "B", ttlVersion := 0,
                 ttl := 60000, hash := some 2 }),
         ("a", { version := 1, originatorId := "x", value := some "A", ttlVersion := 0,
                 ttl := 60000, hash := some 1 })] none).map Prod.fst :=
  mergeKeyValues_perm_deterministic emptyStore _ _ none
    (List.Perm.swap _ _ _) (by decide)
